import Mathlib

/-!
Verification of the radiogaga radio player: the station-catalog builder
(download_radio_stations_urls), the input parser (parse_user_input), the
completion engine (RadioCompleter.get_completions) and the play/listen
command handler (command_play).

The Python source is shallowly embedded: the per-anchor extraction loop
becomes a step function over an explicit state, a raised exception becomes
the none case of Option, Python dicts become insertion-ordered association
lists, and the two regular expressions of the source become executable
predicates on strings.  The third-party fuzzyfinder library is not part of
the repository; it is modelled from the specification's FuzzyMatcher
contract where needed.
-/

namespace RadioGaga

/-- Model of one HTML anchor node as produced by soup.find_all("a", attrs):
a display text and an href attribute.  find_all is called with the href
attribute filtered by URL_PATTERN, so every anchor carries an href. -/
structure Anchor where
  text : String
  href : String
deriving DecidableEq

/-- Model of URL_PATTERN.match s: the regular expression https?:// anchored
at the start of the string s. -/
def urlMatch (s : String) : Bool :=
  "http://".data.isPrefixOf s.data || "https://".data.isPrefixOf s.data

/-- Model of any(pattern.search(href) for pattern in exclude_href_patterns);
each compiled pattern is abstracted as a boolean predicate on the href. -/
def exclAny (pats : List (String → Bool)) (href : String) : Bool :=
  pats.any (fun p => p href)

/-- Python dict assignment d[k] = v on an insertion-ordered association
list: replace the value in place if the key is present, append otherwise. -/
def setk : List (String × String) → String → String → List (String × String)
  | [], k, v => [(k, v)]
  | (k', v') :: t, k, v => if k' = k then (k, v) :: t else (k', v') :: setk t k v

/-- Python membership test k in d on the association list model. -/
def containsKey : List (String × String) → String → Bool
  | [], _ => false
  | (k', _) :: t, k => if k' = k then true else containsKey t k

/-- Python indexing d[k] on the association list model, none when absent. -/
def lookupk : List (String × String) → String → Option String
  | [], _ => none
  | (k', v') :: t, k => if k' = k then some v' else lookupk t k

/-- Model of the f-string f"{station} {count}" used for duplicate entries. -/
def suffKey (station : String) (count : Nat) : String :=
  station ++ " " ++ Nat.repr count

/-- Loop state of download_radio_stations_urls: the local variables station
(unbound at entry, hence Option), count, and the accumulated dict.  count
is only ever read after station has been assigned, so a plain Nat seeded
with 0 is faithful. -/
structure ExtState where
  station : Option String
  count : Nat
  cat : List (String × String)
deriving DecidableEq

/-- One iteration of the for-link loop of download_radio_stations_urls.
An anchor whose text does not match URL_PATTERN resets station and count;
otherwise the href is tested against the exclude patterns before station is
read, so a link arriving before any header crashes (UnboundLocalError,
modelled as none) only when it is not excluded. -/
def stepAnchor (pats : List (String → Bool)) (st : ExtState) (a : Anchor) :
    Option ExtState :=
  if urlMatch a.text = false then
    some ⟨some a.text, 1, st.cat⟩
  else if exclAny pats a.href then
    some st
  else
    match st.station with
    | none => none
    | some s =>
      if containsKey st.cat s then
        some ⟨some s, st.count + 1, setk st.cat (suffKey s (st.count + 1)) a.href⟩
      else
        some ⟨some s, st.count, setk st.cat s a.href⟩

/-- The for-link loop itself, propagating a crash. -/
def extractLoop (pats : List (String → Bool)) :
    ExtState → List Anchor → Option ExtState
  | st, [] => some st
  | st, a :: rest =>
    match stepAnchor pats st a with
    | none => none
    | some st' => extractLoop pats st' rest

/-- Extraction part of download_radio_stations_urls: fold the per-anchor
loop over the ordered anchor sequence starting from unbound locals and an
empty dict, returning the dict (none when the loop raised). -/
def download_radio_stations_urls (anchors : List Anchor)
    (exclude_href_patterns : List (String → Bool)) :
    Option (List (String × String)) :=
  (extractLoop exclude_href_patterns ⟨none, 0, []⟩ anchors).map ExtState.cat

/-- Anchor playing the role of a station header; its text is the station
name (callers instantiate it with text not matching URL_PATTERN). -/
def mkHeader (t : String) : Anchor := ⟨t, "http://x"⟩

/-- Anchor playing the role of a stream link: its display text matches
URL_PATTERN and its href is the given URL. -/
def mkLink (h : String) : Anchor := ⟨"http://x", h⟩

theorem mkHeader_text (t : String) : (mkHeader t).text = t := rfl

theorem mkLink_text (h : String) : (mkLink h).text = "http://x" := rfl

theorem mkLink_href (h : String) : (mkLink h).href = h := rfl

theorem urlMatch_link (h : String) : urlMatch (mkLink h).text = true := by
  rw [mkLink_text]
  decide

/-! Decimal numerals.  The extraction algorithm disambiguates duplicate
station names with keys built by the f-string f"{station} {count}", so we
need that Nat.repr is injective.  Core's Nat.toDigitsCore is fuel-based;
the two lemmas below evaluate a Horner fold over the produced digit list to
recover the number, which gives injectivity. -/

theorem toDigitsCore_append :
    ∀ (fuel n : Nat) (acc : List Char), n < fuel →
    Nat.toDigitsCore 10 fuel n acc = Nat.toDigitsCore 10 fuel n [] ++ acc := by
  intro fuel
  induction fuel with
  | zero => intro n acc h; omega
  | succ f ih =>
    intro n acc h
    simp only [Nat.toDigitsCore]
    by_cases hdiv : n / 10 = 0
    · simp [hdiv]
    · have hge : 10 ≤ n := by
        rcases Nat.lt_or_ge n 10 with h10 | h10
        · exact absurd (Nat.div_eq_of_lt h10) hdiv
        · exact h10
      have hlt : n / 10 < f := by
        have : n / 10 < n := Nat.div_lt_self (by omega) (by omega)
        omega
      simp only [hdiv, if_false]
      rw [ih (n / 10) (Nat.digitChar (n % 10) :: acc) hlt,
        ih (n / 10) [Nat.digitChar (n % 10)] hlt, List.append_assoc]
      rfl

/-- Value of a decimal digit character. -/
def digitVal (c : Char) : Nat := c.toNat - 48

theorem digitVal_digitChar : ∀ d : Nat, d < 10 → digitVal (Nat.digitChar d) = d := by
  decide

theorem foldl_toDigitsCore :
    ∀ (fuel n a : Nat), n < fuel →
    List.foldl (fun x c => 10 * x + digitVal c) a (Nat.toDigitsCore 10 fuel n []) =
      a * 10 ^ (Nat.toDigitsCore 10 fuel n []).length + n := by
  intro fuel
  induction fuel with
  | zero => intro n a h; omega
  | succ f ih =>
    intro n a h
    simp only [Nat.toDigitsCore]
    by_cases hdiv : n / 10 = 0
    · have hn : n < 10 := by
        rcases Nat.lt_or_ge n 10 with h10 | h10
        · exact h10
        · have : 1 ≤ n / 10 := Nat.le_div_iff_mul_le (by omega) |>.mpr (by omega)
          omega
      have hmod : n % 10 = n := Nat.mod_eq_of_lt hn
      simp [hdiv, hmod, digitVal_digitChar n hn, Nat.mul_comm]
    · have hge : 10 ≤ n := by
        rcases Nat.lt_or_ge n 10 with h10 | h10
        · exact absurd (Nat.div_eq_of_lt h10) hdiv
        · exact h10
      have hlt : n / 10 < f := by
        have : n / 10 < n := Nat.div_lt_self (by omega) (by omega)
        omega
      simp only [hdiv, if_false]
      rw [toDigitsCore_append f (n / 10) [Nat.digitChar (n % 10)] hlt,
        List.foldl_append, ih (n / 10) a hlt]
      simp only [List.foldl, List.length_append, List.length_cons,
        List.length_nil]
      rw [digitVal_digitChar (n % 10) (Nat.mod_lt n (by omega))]
      have hpow : 10 ^ ((Nat.toDigitsCore 10 f (n / 10) []).length + (0 + 1)) =
          10 ^ (Nat.toDigitsCore 10 f (n / 10) []).length * 10 := by
        rw [Nat.zero_add, Nat.pow_succ]
      rw [hpow]
      have := Nat.div_add_mod n 10
      ring_nf
      omega

theorem repr_injective : ∀ m n : Nat, Nat.repr m = Nat.repr n → m = n := by
  intro m n h
  have hd : Nat.toDigitsCore 10 (m + 1) m [] = Nat.toDigitsCore 10 (n + 1) n [] := by
    have := congrArg String.data h
    simpa [Nat.repr, Nat.toDigits, List.asString] using this
  have hm := foldl_toDigitsCore (m + 1) m 0 (by omega)
  have hn := foldl_toDigitsCore (n + 1) n 0 (by omega)
  rw [hd] at hm
  simp only [Nat.zero_mul, Nat.zero_add] at hm hn
  omega

theorem suffKey_data (s : String) (i : Nat) :
    (suffKey s i).data = s.data ++ ' ' :: (Nat.repr i).data := by
  have h1 : (" " : String).data = [' '] := rfl
  simp [suffKey, String.data_append, h1]

theorem suffKey_inj {s : String} {i j : Nat} (h : suffKey s i = suffKey s j) :
    i = j := by
  have hd := congrArg String.data h
  rw [suffKey_data, suffKey_data] at hd
  have h2 := List.append_cancel_left hd
  have h3 : (Nat.repr i).data = (Nat.repr j).data := by
    injection h2
  exact repr_injective i j (String.ext h3)

theorem suffKey_ne_self (s : String) (i : Nat) : suffKey s i ≠ s := by
  intro h
  have hd := congrArg String.data h
  rw [suffKey_data] at hd
  have := congrArg List.length hd
  simp [List.length_append] at this

/-! Lemmas on the association-list model of Python dicts. -/

theorem containsKey_append (a b : List (String × String)) (k : String) :
    containsKey (a ++ b) k = (containsKey a k || containsKey b k) := by
  induction a with
  | nil => simp [containsKey]
  | cons p t ih =>
    obtain ⟨k', v'⟩ := p
    by_cases hk : k' = k <;> simp [containsKey, hk, ih]

theorem setk_of_not_contains {l : List (String × String)} {k v : String}
    (h : containsKey l k = false) : setk l k v = l ++ [(k, v)] := by
  induction l with
  | nil => rfl
  | cons p t ih =>
    obtain ⟨k', v'⟩ := p
    by_cases hk : k' = k
    · simp [containsKey, hk] at h
    · simp only [containsKey, hk, if_false] at h
      simp [setk, hk, ih h]

theorem setk_append_left {a : List (String × String)} {k : String}
    (h : containsKey a k = false) (b : List (String × String)) (v : String) :
    setk (a ++ b) k v = a ++ setk b k v := by
  induction a with
  | nil => rfl
  | cons p t ih =>
    obtain ⟨k', v'⟩ := p
    by_cases hk : k' = k
    · simp [containsKey, hk] at h
    · simp only [containsKey, hk, if_false] at h
      simp [setk, hk, ih h]

theorem containsKey_setk {l : List (String × String)} {k k' v : String}
    (h : containsKey l k' = true) : containsKey (setk l k v) k' = true := by
  induction l with
  | nil => simp [containsKey] at h
  | cons p t ih =>
    obtain ⟨k0, v0⟩ := p
    by_cases h0 : k0 = k
    · subst h0
      by_cases h1 : k0 = k'
      · simp [setk, containsKey, h1]
      · simp only [containsKey, h1, if_false] at h
        simp [setk, containsKey, h1, h]
    · by_cases h1 : k0 = k'
      · subst h1
        simp [setk, containsKey, h0]
      · simp only [containsKey, h1, if_false] at h
        simp [setk, containsKey, h0, h1, ih h]

theorem mem_setk {l : List (String × String)} {k v : String} :
    ∀ kv ∈ setk l k v, kv ∈ l ∨ kv = (k, v) := by
  induction l with
  | nil => intro kv hkv; simp [setk] at hkv; simp [hkv]
  | cons p t ih =>
    obtain ⟨k0, v0⟩ := p
    intro kv hkv
    by_cases h0 : k0 = k
    · simp only [setk, h0, if_true] at hkv
      rcases List.mem_cons.mp hkv with h | h
      · right; exact h
      · left; exact List.mem_cons_of_mem _ h
    · simp only [setk, h0, if_false] at hkv
      rcases List.mem_cons.mp hkv with h | h
      · left; simp [h]
      · rcases ih kv h with h' | h'
        · left; exact List.mem_cons_of_mem _ h'
        · right; exact h'

theorem lookupk_setk_ne {l : List (String × String)} {k k' v : String}
    (h : k ≠ k') : lookupk (setk l k v) k' = lookupk l k' := by
  induction l with
  | nil => simp [setk, lookupk, h]
  | cons p t ih =>
    obtain ⟨k0, v0⟩ := p
    by_cases h0 : k0 = k
    · subst h0
      simp [setk, lookupk, h]
    · simp [setk, lookupk, h0, ih]

theorem extractLoop_append (pats : List (String → Bool)) :
    ∀ (as bs : List Anchor) (st : ExtState),
    extractLoop pats st (as ++ bs) =
      (extractLoop pats st as).bind (fun st' => extractLoop pats st' bs) := by
  intro as
  induction as with
  | nil => intro bs st; simp [extractLoop]
  | cons a as ih =>
    intro bs st
    simp only [List.cons_append, extractLoop]
    cases stepAnchor pats st a with
    | none => rfl
    | some st' => exact ih bs st'

/-- C1: the spec requires extraction never to crash on a stream link that
precedes every station header, but the source reads the unbound local
variable station there: on the one-anchor sequence consisting of a single
non-excluded stream link the loop raises UnboundLocalError (modelled as
none) instead of skipping the link. -/
theorem C1_link_before_header_crashes :
    download_radio_stations_urls [mkLink "http://u"] [] = none := by
  decide

/-- Effect of the in-dict branch of the loop on the dict, iterated: starting
from occurrence counter c, each further url w is written under the key
f"{station} {c+1}", f"{station} {c+2}", and so on. -/
def applySuff (station : String) :
    Nat → List (String × String) → List String → List (String × String)
  | _, cat, [] => cat
  | c, cat, w :: ws =>
    applySuff station (c + 1) (setk cat (suffKey station (c + 1)) w) ws

/-- Block of suffixed entries keyed f"{station} {c+1}" .. f"{station} {c+len}". -/
def suffList (station : String) : Nat → List String → List (String × String)
  | _, [] => []
  | c, w :: ws => (suffKey station (c + 1), w) :: suffList station (c + 1) ws

theorem suffList_keys (n : String) :
    ∀ (ws : List String) (c : Nat),
    (suffList n c ws).map Prod.fst = (List.range' (c + 1) ws.length).map (suffKey n) := by
  intro ws
  induction ws with
  | nil => intro c; simp [suffList]
  | cons w ws ih =>
    intro c
    simp [suffList, List.range'_succ, ih (c + 1)]

theorem suffList_vals (n : String) :
    ∀ (ws : List String) (c : Nat), (suffList n c ws).map Prod.snd = ws := by
  intro ws
  induction ws with
  | nil => intro c; simp [suffList]
  | cons w ws ih => intro c; simp [suffList, ih (c + 1)]

/-- Processing a block of stream links while the current station s is
already a key of the dict: every link takes the in-dict branch. -/
theorem extractLoop_links (n : String) :
    ∀ (ws : List String) (c : Nat) (cat : List (String × String)),
    containsKey cat n = true →
    extractLoop [] ⟨some n, c, cat⟩ (ws.map mkLink) =
      some ⟨some n, c + ws.length, applySuff n c cat ws⟩ := by
  intro ws
  induction ws with
  | nil => intro c cat h; simp [extractLoop, applySuff]
  | cons w ws ih =>
    intro c cat h
    have hstep : stepAnchor [] ⟨some n, c, cat⟩ (mkLink w) =
        some ⟨some n, c + 1, setk cat (suffKey n (c + 1)) w⟩ := by
      simp [stepAnchor, urlMatch_link, mkLink_href, exclAny, h]
    simp only [List.map_cons, extractLoop, hstep]
    rw [ih (c + 1) _ (containsKey_setk h)]
    have harith : c + 1 + ws.length = c + (ws.length + 1) := by omega
    simp [applySuff, harith]

/-- Workhorse for the duplicate-header analysis: running the in-dict branch
over urls vs on a dict that ends with a block of suffixed entries (keys
station (c+1)..(c+len ws), with everything before the block free of
suffixed keys) overwrites the block in place and extends it, yielding the
block for vs. -/
theorem applySuff_overwrite (n : String) :
    ∀ (vs ws : List String) (c : Nat) (cat0 : List (String × String)),
    (∀ j, c < j → containsKey cat0 (suffKey n j) = false) →
    ws.length ≤ vs.length →
    applySuff n c (cat0 ++ suffList n c ws) vs = cat0 ++ suffList n c vs := by
  intro vs
  induction vs with
  | nil =>
    intro ws c cat0 hdisj hlen
    have hws : ws = [] := List.eq_nil_of_length_eq_zero (Nat.le_zero.mp hlen)
    subst hws
    simp [applySuff, suffList]
  | cons v vs ih =>
    intro ws c cat0 hdisj hlen
    have hfresh : containsKey cat0 (suffKey n (c + 1)) = false := hdisj (c + 1) (by omega)
    have hext : ∀ j, c + 1 < j →
        containsKey (cat0 ++ [(suffKey n (c + 1), v)]) (suffKey n j) = false := by
      intro j hj
      rw [containsKey_append]
      have ha := hdisj j (by omega)
      have hb : containsKey [(suffKey n (c + 1), v)] (suffKey n j) = false := by
        simp [containsKey]
        intro heq
        have := suffKey_inj heq
        omega
      simp [ha, hb]
    cases ws with
    | nil =>
      simp only [suffList, List.append_nil, applySuff]
      rw [setk_of_not_contains hfresh]
      have h := ih [] (c + 1) (cat0 ++ [(suffKey n (c + 1), v)]) hext (by simp)
      simp only [suffList, List.append_nil] at h
      simp only [List.append_assoc, List.singleton_append] at h
      exact h
    | cons w ws' =>
      have hlen' : ws'.length ≤ vs.length := by
        simp only [List.length_cons] at hlen
        omega
      simp only [suffList, applySuff]
      rw [setk_append_left hfresh]
      have hhit : setk ((suffKey n (c + 1), w) :: suffList n (c + 1) ws')
          (suffKey n (c + 1)) v = (suffKey n (c + 1), v) :: suffList n (c + 1) ws' := by
        simp [setk]
      rw [hhit]
      have h := ih ws' (c + 1) (cat0 ++ [(suffKey n (c + 1), v)]) hext hlen'
      simp only [List.append_assoc, List.singleton_append] at h
      exact h

/-- Anchor sequence of one station header followed by its stream links. -/
def groupAnchors (name : String) (urls : List String) : List Anchor :=
  mkHeader name :: urls.map mkLink

/-- C2 counterexample: for the duplicate header "A" with the two links u1,
u2 and then again "A" with the two links v1, v2, extraction does not
produce the claimed entries "A", "A 2" holding the urls in anchor order:
the counter resets on the duplicate header, so the second group overwrites
"A 2" (losing u2) and appends "A 3". -/
theorem C2_counterexample :
    download_radio_stations_urls
        (groupAnchors "A" ["http://u1", "http://u2"] ++
          groupAnchors "A" ["http://v1", "http://v2"]) [] =
      some [("A", "http://u1"), ("A 2", "http://v1"), ("A 3", "http://v2")] ∧
    download_radio_stations_urls
        (groupAnchors "A" ["http://u1", "http://u2"] ++
          groupAnchors "A" ["http://v1", "http://v2"]) [] ≠
      some [("A", "http://u1"), ("A 2", "http://u2")] := by
  constructor
  · decide
  · decide

/-- C2 amended: duplicated station header name with N non-excluded links
each (first group u :: us, second group vs, both of length N) yields
exactly the entries name, name 2, ..., name (N+1): the bare name keeps the
first group's first url, and name 2 .. name (N+1) hold the second group's
urls in anchor order (the first group's remaining urls are overwritten). -/
theorem C2_duplicate_headers_amended (n u : String) (us vs : List String)
    (hn : urlMatch n = false) (hlen : vs.length = us.length + 1) :
    download_radio_stations_urls (groupAnchors n (u :: us) ++ groupAnchors n vs) [] =
      some ((n, u) :: suffList n 1 vs) ∧
    (suffList n 1 vs).map Prod.fst = (List.range' 2 vs.length).map (suffKey n) ∧
    (suffList n 1 vs).map Prod.snd = vs := by
  refine ⟨?_, suffList_keys n vs 1, suffList_vals n vs 1⟩
  have hdisj1 : ∀ j, 1 < j → containsKey [(n, u)] (suffKey n j) = false := by
    intro j hj
    simp [containsKey]
    intro heq
    exact suffKey_ne_self n j heq.symm
  have hstep_hdr : ∀ st : ExtState, stepAnchor [] st (mkHeader n) = some ⟨some n, 1, st.cat⟩ := by
    intro st
    simp [stepAnchor, mkHeader, hn]
  have hstep_link1 : stepAnchor [] ⟨some n, 1, []⟩ (mkLink u) = some ⟨some n, 1, [(n, u)]⟩ := by
    simp [stepAnchor, urlMatch_link, mkLink_href, exclAny, containsKey, setk]
  have h1 : extractLoop [] ⟨none, 0, []⟩ (groupAnchors n (u :: us)) =
      some ⟨some n, 1 + us.length, applySuff n 1 [(n, u)] us⟩ := by
    simp only [groupAnchors, List.map_cons, extractLoop, hstep_hdr, hstep_link1]
    exact extractLoop_links n us 1 [(n, u)] (by simp [containsKey])
  have hcat1 : applySuff n 1 [(n, u)] us = (n, u) :: suffList n 1 us := by
    have h := applySuff_overwrite n us [] 1 [(n, u)] hdisj1 (by simp)
    simpa [suffList] using h
  have h2 : extractLoop [] ⟨some n, 1 + us.length, (n, u) :: suffList n 1 us⟩
        (groupAnchors n vs) =
      some ⟨some n, 1 + vs.length, applySuff n 1 ((n, u) :: suffList n 1 us) vs⟩ := by
    simp only [groupAnchors, extractLoop, hstep_hdr]
    exact extractLoop_links n vs 1 _ (by simp [containsKey])
  have hcat2 : applySuff n 1 ((n, u) :: suffList n 1 us) vs = (n, u) :: suffList n 1 vs := by
    have h := applySuff_overwrite n vs us 1 [(n, u)] hdisj1 (by omega)
    simpa using h
  unfold download_radio_stations_urls
  rw [extractLoop_append, h1]
  simp only [Option.some_bind]
  rw [hcat1, h2, hcat2]
  rfl

/-- C2 witness: the amended theorem evaluated at the duplicate header "A"
with two links per group. -/
theorem C2_duplicate_headers_witness :
    download_radio_stations_urls
        (groupAnchors "A" ["http://u1", "http://u2"] ++
          groupAnchors "A" ["http://v1", "http://v2"]) [] =
      some (("A", "http://u1") :: suffList "A" 1 ["http://v1", "http://v2"]) :=
  (C2_duplicate_headers_amended "A" "http://u1" ["http://u2"]
    ["http://v1", "http://v2"] (by decide) (by decide)).1

/-- Shape of the dict after one loop step: a header or an excluded link
leaves it unchanged, and an emitting step writes the link's href under a
single key (and only happens when the href is not excluded). -/
theorem stepAnchor_cat {pats : List (String → Bool)} {st st' : ExtState}
    {a : Anchor} (h : stepAnchor pats st a = some st') :
    st'.cat = st.cat ∨
      (exclAny pats a.href = false ∧ ∃ k, st'.cat = setk st.cat k a.href) := by
  unfold stepAnchor at h
  by_cases h1 : urlMatch a.text = false
  · rw [if_pos h1] at h
    injection h with h'
    subst h'
    left; rfl
  · rw [if_neg h1] at h
    by_cases h2 : exclAny pats a.href = true
    · rw [if_pos h2] at h
      injection h with h'
      subst h'
      left; rfl
    · rw [if_neg h2] at h
      have h2' : exclAny pats a.href = false := by
        cases hb : exclAny pats a.href
        · rfl
        · exact absurd hb h2
      cases hs : st.station with
      | none =>
        simp only [hs] at h
        exact Option.noConfusion h
      | some s =>
        simp only [hs] at h
        by_cases h3 : containsKey st.cat s = true
        · rw [if_pos h3] at h
          injection h with h'
          subst h'
          right
          exact ⟨h2', suffKey s (st.count + 1), rfl⟩
        · rw [if_neg h3] at h
          injection h with h'
          subst h'
          right
          exact ⟨h2', s, rfl⟩

/-- Invariant of the extraction loop: every value stored in the dict is the
href of some non-excluded link. -/
theorem extractLoop_values_ok (pats : List (String → Bool)) :
    ∀ (anchors : List Anchor) (st st' : ExtState),
    (∀ kv ∈ st.cat, exclAny pats kv.2 = false) →
    extractLoop pats st anchors = some st' →
    ∀ kv ∈ st'.cat, exclAny pats kv.2 = false := by
  intro anchors
  induction anchors with
  | nil =>
    intro st st' h hrun
    simp only [extractLoop] at hrun
    injection hrun with h'
    subst h'
    exact h
  | cons a anchors ih =>
    intro st st' h hrun
    cases hstep : stepAnchor pats st a with
    | none => simp [extractLoop, hstep] at hrun
    | some st1 =>
      simp only [extractLoop, hstep] at hrun
      refine ih st1 st' ?_ hrun
      intro kv hkv
      rcases stepAnchor_cat hstep with hc | ⟨hex, k, hc⟩
      · rw [hc] at hkv
        exact h kv hkv
      · rw [hc] at hkv
        rcases mem_setk kv hkv with hm | hm
        · exact h kv hm
        · rw [hm]
          exact hex

/-- C3: a link whose href matches an exclude pattern is discarded entirely:
extraction of a sequence containing the excluded link equals extraction of
the sequence with that link removed (so the discard consumes no
occurrence-counter slot and the next non-excluded link of the station
receives the slot the excluded link would have taken), and the excluded
href never occurs as a value of a successfully extracted catalog. -/
theorem C3_exclusion (pats : List (String → Bool)) (as bs : List Anchor)
    (a : Anchor) (h1 : urlMatch a.text = true) (h2 : exclAny pats a.href = true) :
    download_radio_stations_urls (as ++ a :: bs) pats =
      download_radio_stations_urls (as ++ bs) pats ∧
    ∀ cat, download_radio_stations_urls (as ++ a :: bs) pats = some cat →
      ∀ kv ∈ cat, kv.2 ≠ a.href := by
  have hskip : ∀ st : ExtState, stepAnchor pats st a = some st := by
    intro st
    unfold stepAnchor
    rw [if_neg (by simp [h1]), if_pos h2]
  constructor
  · unfold download_radio_stations_urls
    rw [extractLoop_append, extractLoop_append]
    cases hE : extractLoop pats ⟨none, 0, []⟩ as with
    | none => rfl
    | some st1 =>
      simp only [Option.some_bind]
      simp only [extractLoop, hskip st1]
  · intro cat hrun kv hkv
    unfold download_radio_stations_urls at hrun
    cases hE : extractLoop pats ⟨none, 0, []⟩ (as ++ a :: bs) with
    | none => rw [hE] at hrun; simp at hrun
    | some stf =>
      rw [hE] at hrun
      simp only [Option.map_some'] at hrun
      injection hrun with h'
      have hvals := extractLoop_values_ok pats (as ++ a :: bs) ⟨none, 0, []⟩ stf
        (by intro kv hkv'; simp at hkv') hE
      intro hcontra
      have hok := hvals kv (by rw [h']; exact hkv)
      rw [hcontra, h2] at hok
      exact absurd hok (by simp)

/-- Exclude-pattern list for witnesses: one pattern matching a single bad
href. -/
def excludeBad : List (String → Bool) := [fun h => decide (h = "http://bad")]

/-- C3 witness: the exclusion theorem at a concrete anchor sequence. -/
theorem C3_exclusion_witness :
    download_radio_stations_urls
        [mkHeader "A", mkLink "http://bad", mkLink "http://good"] excludeBad =
      download_radio_stations_urls [mkHeader "A", mkLink "http://good"] excludeBad :=
  (C3_exclusion excludeBad [mkHeader "A"] [mkLink "http://good"]
    (mkLink "http://bad") (by decide) (by decide)).1

/-- C4 counterexample: after the duplicate header resets the occurrence
counter, emitting the suffixed entry "A 2" for a later link changes the
previously emitted entry ("A 2", u2), so a suffixed emission does not leave
every previously emitted entry unchanged. -/
theorem C4_counterexample :
    download_radio_stations_urls (groupAnchors "A" ["http://u1", "http://u2"]) [] =
      some [("A", "http://u1"), ("A 2", "http://u2")] ∧
    download_radio_stations_urls
        (groupAnchors "A" ["http://u1", "http://u2"] ++
          [mkHeader "A", mkLink "http://v1"]) [] =
      some [("A", "http://u1"), ("A 2", "http://v1")] := by
  exact ⟨by decide, by decide⟩

/-- C4 amended: while the current station s is bound and its bare name is a
key of the dict, one further loop step never changes the entry under the
bare name s: headers and excluded links leave the dict unchanged, and a
suffixed emission writes under the strictly longer key f"{s} {count}".
Entries under other keys may still be overwritten, as the counterexample
shows. -/
theorem C4_bare_entry_stable_amended (pats : List (String → Bool))
    (st st' : ExtState) (a : Anchor) (s : String)
    (hs : st.station = some s) (hc : containsKey st.cat s = true)
    (hstep : stepAnchor pats st a = some st') :
    lookupk st'.cat s = lookupk st.cat s := by
  unfold stepAnchor at hstep
  by_cases h1 : urlMatch a.text = false
  · rw [if_pos h1] at hstep
    injection hstep with h'
    subst h'
    rfl
  · rw [if_neg h1] at hstep
    by_cases h2 : exclAny pats a.href = true
    · rw [if_pos h2] at hstep
      injection hstep with h'
      subst h'
      rfl
    · rw [if_neg h2] at hstep
      simp only [hs] at hstep
      rw [if_pos hc] at hstep
      injection hstep with h'
      subst h'
      exact lookupk_setk_ne (suffKey_ne_self s (st.count + 1))

/-- C4 witness: the amended frame property at a concrete step. -/
theorem C4_bare_entry_stable_witness :
    lookupk [("A", "http://u"), ("A 2", "http://v")] "A" =
      lookupk [("A", "http://u")] "A" :=
  C4_bare_entry_stable_amended [] ⟨some "A", 1, [("A", "http://u")]⟩
    ⟨some "A", 2, [("A", "http://u"), ("A 2", "http://v")]⟩ (mkLink "http://v") "A"
    (by decide) (by decide) (by decide)

/-! Input parsing: parse_user_input and the str.strip / str.split model. -/

/-- Whitespace as str.strip and str.split treat it (ASCII range). -/
def isSpace (c : Char) : Bool :=
  c = ' ' || c = '\t' || c = '\n' || c = '\r' || c = '\x0b' || c = '\x0c'

/-- Model of str.strip on the character list of the string. -/
def stripChars (cs : List Char) : List Char :=
  ((cs.dropWhile isSpace).reverse.dropWhile isSpace).reverse

/-- Model of str.split with no separator: split on whitespace runs and drop
empty tokens.  The accumulator holds the current token reversed. -/
def splitWsAux : List Char → List Char → List (List Char)
  | [], acc => if acc = [] then [] else [acc.reverse]
  | c :: cs, acc =>
    if isSpace c then
      if acc = [] then splitWsAux cs [] else acc.reverse :: splitWsAux cs []
    else
      splitWsAux cs (c :: acc)

/-- Token list of str.split. -/
def wordsOf (cs : List Char) : List (List Char) := splitWsAux cs []

/-- Model of parse_user_input: strip the line; if the stripped line contains
a space character (the source tests " " in stripped_user_input), split on
whitespace runs and return the first token together with the remaining
tokens joined by single spaces, else return the stripped line and None.
In the space branch the token list is provably nonempty (the stripped line
starts with a non-space character), so headD faithfully renders the
source's indexing splitted_user_input[0]. -/
def parse_user_input (user_input : String) : String × Option String :=
  if (stripChars user_input.data).contains ' ' then
    (((wordsOf (stripChars user_input.data)).map String.mk).headD "",
      some (String.intercalate " "
        (((wordsOf (stripChars user_input.data)).map String.mk).drop 1)))
  else
    (String.mk (stripChars user_input.data), none)

/-- Parsing rule as the spec words it (section 4.4): trim whitespace; if
any internal whitespace remains, the command is the text before the first
whitespace run and the argument is everything after it, rejoined with
single spaces; otherwise the whole trimmed text is the command and the
argument is nil.  Kept separate from parse_user_input so the two can be
compared. -/
def parse_rule_spec (line : String) : String × Option String :=
  if (stripChars line.data).any isSpace then
    (String.mk ((stripChars line.data).takeWhile (fun c => !isSpace c)),
      some (String.intercalate " "
        ((wordsOf ((stripChars line.data).dropWhile (fun c => !isSpace c))).map
          String.mk)))
  else
    (String.mk (stripChars line.data), none)

theorem splitWsAux_nonspace :
    ∀ (xs ys acc : List Char), (∀ c ∈ xs, isSpace c = false) →
    splitWsAux (xs ++ ys) acc = splitWsAux ys (xs.reverse ++ acc) := by
  intro xs
  induction xs with
  | nil => intro ys acc h; simp
  | cons x xs ih =>
    intro ys acc h
    have hx : isSpace x = false := h x (List.mem_cons_self x xs)
    simp only [List.cons_append, splitWsAux, hx, Bool.false_eq_true, if_false,
      List.append_eq]
    rw [ih ys (x :: acc) (fun c hc => h c (List.mem_cons_of_mem _ hc))]
    simp [List.append_assoc]

theorem wordsOf_all_nonspace (ws : List Char) (hne : ws ≠ [])
    (hns : ∀ c ∈ ws, isSpace c = false) : wordsOf ws = [ws] := by
  unfold wordsOf
  have h := splitWsAux_nonspace ws [] [] hns
  simp only [List.append_nil] at h
  rw [h]
  simp only [splitWsAux]
  rw [if_neg (by simp [hne])]
  simp

theorem wordsOf_token_space (xs : List Char) (r : Char) (ys : List Char)
    (hne : xs ≠ []) (hns : ∀ c ∈ xs, isSpace c = false)
    (hr : isSpace r = true) :
    wordsOf (xs ++ r :: ys) = xs :: wordsOf ys := by
  unfold wordsOf
  rw [splitWsAux_nonspace xs (r :: ys) [] hns]
  simp only [List.append_nil, splitWsAux, hr, if_true]
  rw [if_neg (by simp [hne])]
  simp

theorem wordsOf_space_head (r : Char) (ys : List Char) (hr : isSpace r = true) :
    wordsOf (r :: ys) = wordsOf ys := by
  simp [wordsOf, splitWsAux, hr]

theorem dropWhile_head_false (p : Char → Bool) :
    ∀ (l : List Char) (c : Char) (rest : List Char),
    l.dropWhile p = c :: rest → p c = false := by
  intro l
  induction l with
  | nil => intro c rest h; simp [List.dropWhile] at h
  | cons x xs ih =>
    intro c rest h
    rw [List.dropWhile_cons] at h
    by_cases hx : p x = true
    · rw [if_pos hx] at h
      exact ih c rest h
    · rw [if_neg hx] at h
      injection h with h1 h2
      subst h1
      exact Bool.eq_false_iff.mpr hx

theorem dropWhile_is_suffix (p : Char → Bool) :
    ∀ l : List Char, ∃ pre, pre ++ l.dropWhile p = l := by
  intro l
  induction l with
  | nil => exact ⟨[], rfl⟩
  | cons x xs ih =>
    rw [List.dropWhile_cons]
    by_cases hx : p x = true
    · rcases ih with ⟨pre, hpre⟩
      exact ⟨x :: pre, by simp [hx, hpre]⟩
    · exact ⟨[], by simp [hx]⟩

theorem stripChars_head_nonspace (cs : List Char) (c : Char) (rest : List Char)
    (h : stripChars cs = c :: rest) : isSpace c = false := by
  rcases dropWhile_is_suffix isSpace ((cs.dropWhile isSpace).reverse) with ⟨pre, hpre⟩
  have hd : List.dropWhile isSpace cs = stripChars cs ++ pre.reverse := by
    have h2 := congrArg List.reverse hpre
    simp only [List.reverse_append, List.reverse_reverse] at h2
    rw [stripChars]
    exact h2.symm
  rw [h] at hd
  exact dropWhile_head_false isSpace cs c (rest ++ pre.reverse) (by simpa using hd)

/-- First token of the stripped line: when the stripped line is nonempty
with a non-space head and contains any whitespace at all, str.split yields
the maximal non-space prefix followed by the tokens of the remainder. -/
theorem wordsOf_first_token (t : List Char) (c : Char) (rest : List Char)
    (ht : t = c :: rest) (hc : isSpace c = false) (hsp : ∃ x ∈ t, isSpace x = true) :
    wordsOf t =
      t.takeWhile (fun x => !isSpace x) ::
        wordsOf (List.tail (t.dropWhile (fun x => !isSpace x))) ∧
    t.takeWhile (fun x => !isSpace x) ≠ [] ∧
    ∃ r rp, t.dropWhile (fun x => !isSpace x) = r :: rp ∧ isSpace r = true := by
  have htok : ∀ x ∈ t.takeWhile (fun x => !isSpace x), isSpace x = false := by
    intro x hx
    have := List.mem_takeWhile_imp hx
    simpa using this
  have hne : t.takeWhile (fun x => !isSpace x) ≠ [] := by
    rw [ht, List.takeWhile_cons, if_pos (by simp [hc])]
    simp
  have hsplit := List.takeWhile_append_dropWhile (p := fun x => !isSpace x) (l := t)
  cases hdrop : t.dropWhile (fun x => !isSpace x) with
  | nil =>
    exfalso
    rcases hsp with ⟨x, hxt, hxs⟩
    rw [← hsplit, hdrop, List.append_nil] at hxt
    rw [htok x hxt] at hxs
    exact Bool.false_ne_true hxs
  | cons r rp =>
    have hr : isSpace r = true := by
      have := dropWhile_head_false (fun x => !isSpace x) t r rp hdrop
      simpa using this
    refine ⟨?_, hne, r, rp, rfl, hr⟩
    conv_lhs => rw [← hsplit, hdrop]
    rw [wordsOf_token_space _ r rp hne htok hr]
    rfl

/-- C5 counterexample: the source selects the split branch only when the
stripped line contains a space character, not any whitespace: on the input
"play\tx" (internal tab) the claim's rule yields ("play", "x") but
parse_user_input returns the whole text as the command with nil argument. -/
theorem C5_counterexample :
    parse_user_input "play\tx" = ("play\tx", none) ∧
    parse_rule_spec "play\tx" = ("play", some "x") := by
  exact ⟨by decide, by decide⟩

/-- C5 amended: parse_user_input trims the line and splits it on the first
whitespace run into command and argument (argument rejoined with single
spaces) exactly as the spec's rule says, except that the split branch is
selected by the presence of an internal space character (U+0020) rather
than any internal whitespace; the three examples of the spec behave as
claimed. -/
theorem C5_parse_amended :
    (∀ s : String,
      ((stripChars s.data).contains ' ' = false →
        parse_user_input s = (String.mk (stripChars s.data), none)) ∧
      ((stripChars s.data).contains ' ' = true →
        parse_user_input s =
          (String.mk ((stripChars s.data).takeWhile (fun c => !isSpace c)),
            some (String.intercalate " "
              ((wordsOf ((stripChars s.data).dropWhile (fun c => !isSpace c))).map
                String.mk))))) ∧
    parse_user_input "  play   France Inter  " = ("play", some "France Inter") ∧
    parse_user_input "search" = ("search", none) ∧
    parse_user_input "" = ("", none) := by
  refine ⟨?_, by decide, by decide, by decide⟩
  intro s
  constructor
  · intro h
    have hnot : ¬(stripChars s.data).contains ' ' = true := by
      rw [h]
      exact Bool.false_ne_true
    simp only [parse_user_input]
    rw [if_neg hnot]
  · intro h
    have hsp : ' ' ∈ stripChars s.data := List.mem_of_elem_eq_true h
    have hmem : ∃ x ∈ stripChars s.data, isSpace x = true :=
      ⟨' ', hsp, by decide⟩
    rcases List.exists_cons_of_ne_nil (List.ne_nil_of_mem hsp) with ⟨c, rest, ht⟩
    have hc := stripChars_head_nonspace s.data c rest ht
    rcases wordsOf_first_token (stripChars s.data) c rest ht hc hmem with
      ⟨hwords, hne, r, rp, hdrop, hr⟩
    simp only [parse_user_input]
    rw [if_pos h, hwords, hdrop]
    simp only [List.tail_cons]
    rw [wordsOf_space_head r rp hr]
    simp

/-- C5 witness: the amended split rule applied to a concrete line. -/
theorem C5_parse_amended_witness :
    parse_user_input "play France Inter" = ("play", some "France Inter") :=
  (C5_parse_amended.1 "play France Inter").2 (by decide)

/-! FuzzyMatcher and the completion engine. -/

/-- Case-insensitive subsequence test: every character of the first list
appears, in order and not necessarily contiguously, in the second. -/
def isSubseqCI : List Char → List Char → Bool
  | [], _ => true
  | _ :: _, [] => false
  | q :: qs, c :: cs =>
    if q.toLower = c.toLower then isSubseqCI qs cs else isSubseqCI (q :: qs) cs

/-- Modelled from the spec: the fuzzyfinder library imported by the source
is a third-party package, not part of this repository, so the FuzzyMatcher
contract of section 4.2 is taken as its definition: a candidate matches
when the query is a case-insensitive subsequence of it, the empty query
matches every candidate, matches keep their original relative order, and
the function is pure (recomputed on every call, no retained state). -/
def fuzzyfinder (query : String) (collection : List String) : List String :=
  collection.filter (fun cand => isSubseqCI query.data cand.data)

/-- C8: the fuzzy matcher is a pure, order-preserving filter: the empty
query returns the candidate list unchanged, the result is always a sublist
of the candidates (hence a subset with original relative order preserved),
and calling it again with the same arguments gives the same result. -/
theorem C8_fuzzyfinder_contract :
    (∀ cs : List String, fuzzyfinder "" cs = cs) ∧
    (∀ (q : String) (cs : List String), (fuzzyfinder q cs).Sublist cs) ∧
    (∀ (q : String) (cs : List String) (x : String), x ∈ fuzzyfinder q cs → x ∈ cs) ∧
    (∀ (q : String) (cs : List String), fuzzyfinder q cs = fuzzyfinder q cs) := by
  refine ⟨?_, ?_, ?_, fun q cs => rfl⟩
  · intro cs
    unfold fuzzyfinder
    apply List.filter_eq_self.mpr
    intro cand _
    have hnil : ("" : String).data = ([] : List Char) := by decide
    rw [hnil]
    cases cand.data with
    | nil => rfl
    | cons c cs2 => rfl
  · intro q cs
    exact List.filter_sublist cs
  · intro q cs x hx
    exact List.mem_of_mem_filter hx

/-- C8 witness: the subset property instantiated on a concrete query. -/
theorem C8_fuzzyfinder_witness : "France Inter" ∈ ["France Inter", "Nova"] :=
  C8_fuzzyfinder_contract.2.2.1 "fra" ["France Inter", "Nova"] "France Inter"
    (by decide)

/-- Model of prompt_toolkit's Document as the completer uses it: one input
line and the cursor position, an index into that line. -/
structure PtkDocument where
  text : String
  cursor_position : Nat

/-- document.current_line_before_cursor for a single-line document. -/
def textBeforeCursor (d : PtkDocument) : List Char :=
  d.text.data.take d.cursor_position

/-- document.get_word_before_cursor(WORD=True): the maximal run of
non-whitespace characters immediately before the cursor. -/
def wordBeforeCursor (d : PtkDocument) : List Char :=
  ((textBeforeCursor d).reverse.takeWhile (fun c => !isSpace c)).reverse

/-- One completion item, prompt_toolkit's Completion(text, start_position,
display_meta): start_position is relative to the cursor, so the absolute
anchor of the replacement is cursor_position + start_position. -/
structure Completion where
  text : String
  start_position : Int
  display_meta : Option String
deriving DecidableEq

/-- Length of the leading whitespace of the text before the cursor: the
source's stripped_len = len(text_before_cursor) - len(lstripped text). -/
def strippedLenOf (before : List Char) : Nat :=
  before.length - (before.dropWhile isSpace).length

/-- Station-mode body of RadioCompleter.get_completions: the source's
offset_stations_string = stripped_len + len(command) + 1, search_for =
text_before_cursor[offset:], and each fuzzyfinder match m is yielded as
Completion(m, -(cursor_position - offset), display_meta=stations[m]). -/
def station_mode_completions (stations : List (String × String))
    (before : List Char) (w : List Char) (cursor : Nat) : List Completion :=
  (fuzzyfinder (String.mk (before.drop (strippedLenOf before + w.length + 1)))
      (stations.map Prod.fst)).map
    (fun m =>
      ⟨m, ((strippedLenOf before + w.length + 1 : Nat) : Int) - (cursor : Int),
        lookupk stations m⟩)

/-- Model of RadioCompleter.get_completions: commands holds the keys of the
COMMANDS dict in order, stations the radio_stations dict.  The generator's
yields are collected in order; none models the IndexError raised by
text_before_cursor.split()[0] when the text before the cursor contains a
space but splits into no tokens (all whitespace). -/
def get_completions (commands : List String) (stations : List (String × String))
    (document : PtkDocument) : Option (List Completion) :=
  if (textBeforeCursor document).contains ' ' then
    match wordsOf (textBeforeCursor document) with
    | [] => none
    | w :: _ =>
      if commands.contains (String.mk w) then
        some (station_mode_completions stations (textBeforeCursor document) w
          document.cursor_position)
      else some []
  else
    some ((fuzzyfinder (String.mk (wordBeforeCursor document)) commands).map
      (fun m => ⟨m, -((wordBeforeCursor document).length : Int), none⟩))

/-- Keys of the COMMANDS dict of the source, in insertion order. -/
def COMMAND_NAMES : List String := ["play", "listen", "show", "info", "search"]

/-- Stations dict of the completion example. -/
def demoStations : List (String × String) :=
  [("France Inter", "http://fi"), ("France Info", "http://fo")]

theorem station_mode_anchor (stations : List (String × String))
    (before : List Char) (w : List Char) (cursor : Nat) :
    ∀ compl ∈ station_mode_completions stations before w cursor,
      (cursor : Int) + compl.start_position =
        ((strippedLenOf before + w.length + 1 : Nat) : Int) := by
  intro compl hcompl
  rcases List.mem_map.mp hcompl with ⟨m, _, hm⟩
  rw [← hm]
  dsimp only
  omega

/-- C6: in station mode, for a line of the shape command, one space, then
the station fragment, cursor at the end of the line, every suggestion is
anchored at the first character after the space following the command
token (absolute offset len(command) + 1); and on the line "play fra" with
cursor 8 and the two France stations, both stations are suggested with
their urls as display labels, anchored at absolute offset 5 (encoded as
start_position -3 relative to the cursor). -/
theorem C6_station_mode :
    (∀ (commands : List String) (stations : List (String × String))
        (cmd rest : String) (compls : List Completion),
      cmd.data ≠ [] →
      (∀ c ∈ cmd.data, isSpace c = false) →
      commands.contains cmd = true →
      get_completions commands stations
          ⟨cmd ++ " " ++ rest, (cmd ++ " " ++ rest).data.length⟩ = some compls →
      ∀ compl ∈ compls,
        (((cmd ++ " " ++ rest).data.length : Nat) : Int) + compl.start_position =
          ((cmd.data.length + 1 : Nat) : Int)) ∧
    get_completions COMMAND_NAMES demoStations ⟨"play fra", 8⟩ =
      some [⟨"France Inter", -3, some "http://fi"⟩,
        ⟨"France Info", -3, some "http://fo"⟩] := by
  constructor
  · intro commands stations cmd rest compls hne hns hcmd hrun compl hcompl
    have hdata : (cmd ++ " " ++ rest).data = cmd.data ++ ' ' :: rest.data := by
      simp [String.data_append]
    have htb : textBeforeCursor ⟨cmd ++ " " ++ rest, (cmd ++ " " ++ rest).data.length⟩ =
        cmd.data ++ ' ' :: rest.data := by
      simp only [textBeforeCursor, List.take_length]
      exact hdata
    have hcontains : (cmd.data ++ ' ' :: rest.data).contains ' ' = true := by
      have hm : ' ' ∈ cmd.data ++ ' ' :: rest.data := by simp
      exact List.elem_eq_true_of_mem hm
    have hdw : (cmd.data ++ ' ' :: rest.data).dropWhile isSpace =
        cmd.data ++ ' ' :: rest.data := by
      cases hcd : cmd.data with
      | nil => exact absurd hcd hne
      | cons c0 ct =>
        have h0 : isSpace c0 = false := by
          apply hns
          rw [hcd]
          exact List.mem_cons_self c0 ct
        simp [List.dropWhile_cons, h0]
    have hwords : wordsOf (cmd.data ++ ' ' :: rest.data) =
        cmd.data :: wordsOf rest.data :=
      wordsOf_token_space cmd.data ' ' rest.data hne hns (by decide)
    have hmk : String.mk cmd.data = cmd := rfl
    simp only [get_completions, htb, hcontains, if_true, hwords, hmk, hcmd] at hrun
    injection hrun with h'
    have hanchor := station_mode_anchor stations (cmd.data ++ ' ' :: rest.data)
      cmd.data ((cmd ++ " " ++ rest).data.length) compl (by rw [h']; exact hcompl)
    have hsl : strippedLenOf (cmd.data ++ ' ' :: rest.data) = 0 := by
      simp [strippedLenOf, hdw]
    rw [hsl] at hanchor
    simpa using hanchor
  · decide

/-- C6 witness: the station-mode anchor theorem applied to the concrete
line "play fra" and the suggestion for "France Inter". -/
theorem C6_station_mode_witness :
    ((("play" ++ " " ++ "fra" : String).data.length : Nat) : Int) +
        (Completion.mk "France Inter" (-3) (some "http://fi")).start_position =
      ((("play" : String).data.length + 1 : Nat) : Int) :=
  C6_station_mode.1 COMMAND_NAMES demoStations "play" "fra"
    [⟨"France Inter", -3, some "http://fi"⟩, ⟨"France Info", -3, some "http://fo"⟩]
    (by decide) (by decide) (by decide) (by decide)
    ⟨"France Inter", -3, some "http://fi"⟩ (by decide)

/-! Command handlers and the REPL loop. -/

/-- The MEDIA_PLAYERS_DEFAULT_ARGS dict of the source. -/
def MEDIA_PLAYERS_DEFAULT_ARGS : List (String × String) :=
  [("mpv", "--no-video"), ("vlc", "")]

/-- Model of fmt_player_cmd: the f-string f"{player} {player_args} {url}". -/
def fmt_player_cmd (player player_args url : String) : String :=
  player ++ " " ++ player_args ++ " " ++ url

/-- Observable effect of command_play: either the unknown-station notice is
printed and nothing else happens, or subprocess.run is invoked with the
split command line (blocking until the player process exits). -/
inductive PlayEffect where
  | printUnknown (station_name : Option String)
  | runPlayer (cmd_line : List String)
deriving DecidableEq

/-- Model of command_play.  The source first tests station_name in
radio_stations (false for None), printing the notice and returning when
the test fails; otherwise it evaluates MEDIA_PLAYERS_DEFAULT_ARGS[PLAYER],
which raises KeyError (modelled as none) when the selected player is not a
key of that dict, then splits the formatted command line with str.split
and hands it to subprocess.run. -/
def command_play (radio_stations : List (String × String))
    (station_name : Option String) (player : String) : Option PlayEffect :=
  match station_name with
  | none => some (.printUnknown none)
  | some s =>
    match lookupk radio_stations s with
    | none => some (.printUnknown (some s))
    | some url =>
      match lookupk MEDIA_PLAYERS_DEFAULT_ARGS player with
      | none => none
      | some player_args =>
        some (.runPlayer
          ((wordsOf (fmt_player_cmd player player_args url).data).map String.mk))

theorem getLast?_cons_of_ne_nil {α : Type} (a : α) (l : List α) (h : l ≠ []) :
    (a :: l).getLast? = l.getLast? := by
  cases l with
  | nil => exact absurd rfl h
  | cons b t => rfl

theorem getLast?_map {α β : Type} (f : α → β) :
    ∀ l : List α, (l.map f).getLast? = l.getLast?.map f := by
  intro l
  induction l with
  | nil => rfl
  | cons a l ih =>
    cases l with
    | nil => rfl
    | cons b t =>
      show (f a :: f b :: List.map f t).getLast? = ((a :: b :: t).getLast?).map f
      have h1 : (f a :: f b :: List.map f t).getLast? =
          (f b :: List.map f t).getLast? := rfl
      have h2 : (a :: b :: t).getLast? = (b :: t).getLast? := rfl
      rw [h1, h2]
      exact ih

/-- The last token of str.split on a string ending in a space followed by a
nonempty whitespace-free tail is exactly that tail. -/
theorem splitWsAux_last (ws : List Char) (hne : ws ≠ [])
    (hns : ∀ c ∈ ws, isSpace c = false) :
    ∀ (cs acc : List Char), (splitWsAux (cs ++ ' ' :: ws) acc).getLast? = some ws := by
  have hw : splitWsAux ws [] = [ws] := wordsOf_all_nonspace ws hne hns
  intro cs
  induction cs with
  | nil =>
    intro acc
    have hsp : isSpace ' ' = true := by decide
    simp only [List.nil_append, splitWsAux, hsp, if_true]
    by_cases ha : acc = []
    · rw [if_pos ha, hw]
      rfl
    · rw [if_neg ha, hw]
      rfl
  | cons c cs ih =>
    intro acc
    simp only [List.cons_append, splitWsAux]
    by_cases hc : isSpace c = true
    · rw [if_pos hc]
      by_cases ha : acc = []
      · rw [if_pos ha]
        exact ih []
      · rw [if_neg ha]
        have h := ih []
        cases hres : splitWsAux (cs ++ ' ' :: ws) [] with
        | nil => rw [hres] at h; exact absurd h (by simp)
        | cons y ys =>
          rw [hres] at h
          rw [getLast?_cons_of_ne_nil _ (y :: ys) (by simp)]
          exact h
    · rw [if_neg hc]
      exact ih (c :: acc)

/-- C7: the play/listen handler prints the unknown-station notice and does
nothing else when the name is absent from the catalog; when the name is
present (and the selected player has an entry in the default-arguments
dict, the url being a nonempty whitespace-free token as stream urls are),
it spawns the player process with the resolved url as the final argument
of the command line and blocks on it. -/
theorem C7_play_handler :
    ∀ (radio_stations : List (String × String)) (name url player player_args : String),
      (lookupk radio_stations name = none →
        command_play radio_stations (some name) player =
          some (.printUnknown (some name))) ∧
      (lookupk radio_stations name = some url →
        lookupk MEDIA_PLAYERS_DEFAULT_ARGS player = some player_args →
        url.data ≠ [] →
        (∀ c ∈ url.data, isSpace c = false) →
        ∃ cmd_line,
          command_play radio_stations (some name) player =
            some (.runPlayer cmd_line) ∧
          cmd_line.getLast? = some url) := by
  intro radio_stations name url player player_args
  constructor
  · intro habsent
    simp [command_play, habsent]
  · intro hfound hplayer hne hns
    refine ⟨(wordsOf (fmt_player_cmd player player_args url).data).map String.mk,
      by simp [command_play, hfound, hplayer], ?_⟩
    have hfmt : (fmt_player_cmd player player_args url).data =
        ((player.data ++ [' ']) ++ player_args.data) ++ ' ' :: url.data := by
      simp [fmt_player_cmd, String.data_append]
    rw [getLast?_map, hfmt]
    have hlast := splitWsAux_last url.data hne hns
      ((player.data ++ [' ']) ++ player_args.data) []
    rw [wordsOf, hlast]
    rfl

/-- C7 witness: both branches of the handler theorem on a concrete catalog. -/
theorem C7_play_handler_witness :
    command_play [("France Inter", "http://fi")] (some "Nova") "mpv" =
      some (.printUnknown (some "Nova")) ∧
    ∃ cmd_line,
      command_play [("France Inter", "http://fi")] (some "France Inter") "mpv" =
        some (.runPlayer cmd_line) ∧
      cmd_line.getLast? = some "http://fi" :=
  ⟨(C7_play_handler [("France Inter", "http://fi")] "Nova" "x" "mpv" "y").1
      (by decide),
    (C7_play_handler [("France Inter", "http://fi")] "France Inter" "http://fi"
      "mpv" "--no-video").2 (by decide) (by decide) (by decide) (by decide)⟩

/-- C9: with a station name that is present in the catalog, selecting any
player other than "mpv" or "vlc" makes command_play raise an uncaught
KeyError from the MEDIA_PLAYERS_DEFAULT_ARGS lookup (the CLI's -p flag
accepts an arbitrary string, argparse imposing no choices). -/
theorem C9_unknown_player_crashes (radio_stations : List (String × String))
    (name url player : String) (hknown : lookupk radio_stations name = some url)
    (hp1 : player ≠ "mpv") (hp2 : player ≠ "vlc") :
    command_play radio_stations (some name) player = none := by
  have hargs : lookupk MEDIA_PLAYERS_DEFAULT_ARGS player = none := by
    simp only [MEDIA_PLAYERS_DEFAULT_ARGS, lookupk]
    rw [if_neg (fun h => hp1 h.symm), if_neg (fun h => hp2 h.symm)]
  simp [command_play, hknown, hargs]

/-- C9 witness: the crash at the concrete player "mplayer". -/
theorem C9_unknown_player_witness :
    command_play [("France Inter", "http://fi")] (some "France Inter") "mplayer" =
      none :=
  C9_unknown_player_crashes [("France Inter", "http://fi")] "France Inter"
    "http://fi" "mplayer" (by decide) (by decide) (by decide)

end RadioGaga
